import Mathlib

/-!
Verification of the homopolymer-compress repository.

The library (src/lib.rs) provides two pure functions over arbitrary
equality-comparable symbol sequences:

* homopolymer_compress: a scan with state previous_item : Option Item that
  emits an item exactly when it differs from the previously emitted one,
  followed by flatten (dropping the None outputs);
* homopolymer_compress_with_hodeco_map: the same scan over the enumerated
  input, additionally emitting the 0-based index of each emitted item.

The binary (src/main.rs) wires these into a reader / worker / writer
pipeline. We model its per-record data flow sequentially (the concurrency
itself only permutes record order and is not relevant to the claims
settled here).
-/

namespace HomopolymerCompress

/-- One step of the scan closure in homopolymer_compress (src/lib.rs lines
15-27): given the mutable state previous_item and the next item, return the
updated state and the Option item given to flatten. -/
def hocoScanStep {α : Type} [DecidableEq α] (previous_item : Option α) (item : α) :
    Option α × Option α :=
  match previous_item with
  | some p => if p = item then (some p, none) else (some item, some item)
  | none => (some item, some item)

/-- The list of Option items produced by the scan in homopolymer_compress,
starting from the given state. -/
def hocoScan {α : Type} [DecidableEq α] (previous_item : Option α) :
    List α → List (Option α)
  | [] => []
  | item :: rest =>
    (hocoScanStep previous_item item).2 ::
      hocoScan (hocoScanStep previous_item item).1 rest

/-- homopolymer_compress (src/lib.rs lines 6-29): scan with initial state
None, then flatten (filter out the None outputs). -/
def homopolymer_compress {α : Type} [DecidableEq α] (input : List α) : List α :=
  (hocoScan none input).filterMap id

/-- One step of the scan closure in homopolymer_compress_with_hodeco_map
(src/lib.rs lines 41-53): the input has been enumerated, so each element is
an (index, item) pair, and an emission carries (item, index). -/
def hodecoScanStep {α : Type} [DecidableEq α] (previous_item : Option α)
    (indexed : Nat × α) : Option α × Option (α × Nat) :=
  match previous_item with
  | some p =>
    if p = indexed.2 then (some p, none)
    else (some indexed.2, some (indexed.2, indexed.1))
  | none => (some indexed.2, some (indexed.2, indexed.1))

/-- The list of Option (item, index) pairs produced by the scan in
homopolymer_compress_with_hodeco_map, starting from the given state. -/
def hodecoScan {α : Type} [DecidableEq α] (previous_item : Option α) :
    List (Nat × α) → List (Option (α × Nat))
  | [] => []
  | x :: rest =>
    (hodecoScanStep previous_item x).2 ::
      hodecoScan (hodecoScanStep previous_item x).1 rest

/-- homopolymer_compress_with_hodeco_map (src/lib.rs lines 32-56):
enumerate, scan with initial state None, flatten. -/
def homopolymer_compress_with_hodeco_map {α : Type} [DecidableEq α]
    (input : List α) : List (α × Nat) :=
  (hodecoScan none input.enum).filterMap id

/-! Recursive characterizations of the two scans: once the first item has
been consumed the state is always some p, and the remaining behaviour is
the simple recursion below. -/

/-- Tail of homopolymer_compress after the first run has started: p is the
previously emitted item. -/
def hocoGo {α : Type} [DecidableEq α] (p : α) : List α → List α
  | [] => []
  | x :: xs => if p = x then hocoGo p xs else x :: hocoGo x xs

/-- Tail of homopolymer_compress_with_hodeco_map after the first run has
started: p is the previously emitted item, n the index of the next input
element. -/
def hodecoGo {α : Type} [DecidableEq α] (p : α) (n : Nat) :
    List α → List (α × Nat)
  | [] => []
  | x :: xs => if p = x then hodecoGo p (n + 1) xs else (x, n) :: hodecoGo x (n + 1) xs

theorem hocoScan_some_filterMap {α : Type} [DecidableEq α] (p : α) (l : List α) :
    (hocoScan (some p) l).filterMap id = hocoGo p l := by
  induction l generalizing p with
  | nil => rfl
  | cons x xs ih =>
    by_cases h : p = x
    · simp [hocoScan, hocoScanStep, h, List.filterMap_cons, ih, hocoGo]
    · simp [hocoScan, hocoScanStep, h, List.filterMap_cons, ih, hocoGo]

theorem homopolymer_compress_nil {α : Type} [DecidableEq α] :
    homopolymer_compress ([] : List α) = [] := rfl

theorem homopolymer_compress_cons {α : Type} [DecidableEq α] (x : α) (xs : List α) :
    homopolymer_compress (x :: xs) = x :: hocoGo x xs := by
  simp [homopolymer_compress, hocoScan, hocoScanStep, List.filterMap_cons,
    hocoScan_some_filterMap]

theorem hodecoScan_some_filterMap {α : Type} [DecidableEq α] (p : α) (n : Nat)
    (l : List α) :
    (hodecoScan (some p) (l.enumFrom n)).filterMap id = hodecoGo p n l := by
  induction l generalizing p n with
  | nil => rfl
  | cons x xs ih =>
    by_cases h : p = x
    · simp [List.enumFrom, hodecoScan, hodecoScanStep, h, List.filterMap_cons,
        ih, hodecoGo]
    · simp [List.enumFrom, hodecoScan, hodecoScanStep, h, List.filterMap_cons,
        ih, hodecoGo]

theorem homopolymer_compress_with_hodeco_map_nil {α : Type} [DecidableEq α] :
    homopolymer_compress_with_hodeco_map ([] : List α) = [] := rfl

theorem homopolymer_compress_with_hodeco_map_cons {α : Type} [DecidableEq α]
    (x : α) (xs : List α) :
    homopolymer_compress_with_hodeco_map (x :: xs) = (x, 0) :: hodecoGo x 1 xs := by
  simp [homopolymer_compress_with_hodeco_map, List.enum, List.enumFrom,
    hodecoScan, hodecoScanStep, List.filterMap_cons, hodecoScan_some_filterMap]

end HomopolymerCompress

namespace HomopolymerCompress

/-- Re-expansion used by the hodeco map (mirrors the reconstruction in the
test test_hodeco_mapping and the spec round-trip: each emitted symbol is
repeated map[i+1] - map[i] times, where the map entries are taken as
consecutive windows of size two). -/
def hodecoExpand {α : Type} : List α → List Nat → List α
  | sym :: syms, a :: b :: rest =>
    List.replicate (b - a) sym ++ hodecoExpand syms (b :: rest)
  | _, _ => []

theorem hodecoExpand_cons {α : Type} (sym : α) (syms : List α) (a b : Nat)
    (rest : List Nat) :
    hodecoExpand (sym :: syms) (a :: b :: rest) =
      List.replicate (b - a) sym ++ hodecoExpand syms (b :: rest) := rfl

theorem hodecoGo_cons_eq {α : Type} [DecidableEq α] {p x : α} (n : Nat)
    (xs : List α) (h : p = x) :
    hodecoGo p n (x :: xs) = hodecoGo p (n + 1) xs := by
  simp [hodecoGo, h]

theorem hodecoGo_cons_ne {α : Type} [DecidableEq α] {p x : α} (n : Nat)
    (xs : List α) (h : p ≠ x) :
    hodecoGo p n (x :: xs) = (x, n) :: hodecoGo x (n + 1) xs := by
  simp [hodecoGo, h]

theorem hocoGo_cons_eq {α : Type} [DecidableEq α] {p x : α} (xs : List α)
    (h : p = x) : hocoGo p (x :: xs) = hocoGo p xs := by
  simp [hocoGo, h]

theorem hocoGo_cons_ne {α : Type} [DecidableEq α] {p x : α} (xs : List α)
    (h : p ≠ x) : hocoGo p (x :: xs) = x :: hocoGo x xs := by
  simp [hocoGo, h]

theorem hodecoGo_expand {α : Type} [DecidableEq α] (l : List α) (p : α)
    (n s : Nat) (hs : s ≤ n) :
    hodecoExpand (p :: (hodecoGo p n l).map Prod.fst)
      (s :: ((hodecoGo p n l).map Prod.snd ++ [n + l.length])) =
      List.replicate (n - s) p ++ l := by
  induction l generalizing p n s with
  | nil => simp [hodecoGo, hodecoExpand]
  | cons x xs ih =>
    by_cases h : p = x
    · subst h
      rw [hodecoGo_cons_eq n xs rfl, List.length_cons]
      have h1 : n + (xs.length + 1) = (n + 1) + xs.length := by omega
      rw [h1, ih p (n + 1) s (by omega)]
      have h2 : n + 1 - s = (n - s) + 1 := by omega
      rw [h2, List.replicate_succ', List.append_assoc]
      simp
    · rw [hodecoGo_cons_ne n xs h, List.length_cons, List.map_cons,
        List.map_cons, List.cons_append, hodecoExpand_cons]
      have h1 : n + (xs.length + 1) = (n + 1) + xs.length := by omega
      rw [h1, ih x (n + 1) n (by omega)]
      have h2 : n + 1 - n = 1 := by omega
      rw [h2]
      simp

/-- C1: For every finite input sequence S, taking the (symbol, index) pairs
produced by homopolymer_compress_with_hodeco_map S, appending the total
length of S as one final map entry, and re-expanding each emitted symbol by
map[i+1] - map[i] repetitions in order, then concatenating, reproduces S
exactly. -/
theorem compress_with_map_round_trip {α : Type} [DecidableEq α] (S : List α) :
    hodecoExpand ((homopolymer_compress_with_hodeco_map S).map Prod.fst)
      ((homopolymer_compress_with_hodeco_map S).map Prod.snd ++ [S.length]) = S := by
  cases S with
  | nil => rfl
  | cons x xs =>
    rw [homopolymer_compress_with_hodeco_map_cons]
    simp only [List.map_cons, List.cons_append, List.length_cons]
    have h1 : xs.length + 1 = 1 + xs.length := by omega
    rw [h1, hodecoGo_expand xs x 1 0 (by omega)]
    simp

theorem hocoGo_chain {α : Type} [DecidableEq α] (l : List α) (p : α) :
    List.Chain (· ≠ ·) p (hocoGo p l) := by
  induction l generalizing p with
  | nil => exact List.Chain.nil
  | cons x xs ih =>
    by_cases h : p = x
    · simpa [hocoGo, h] using ih x
    · exact (by simpa [hocoGo, h] using List.Chain.cons h (ih x))

/-- C2: For every finite input sequence S, no two adjacent symbols in the
output of homopolymer_compress S are equal. -/
theorem compress_no_adjacent_equal {α : Type} [DecidableEq α] (S : List α) :
    List.Chain' (· ≠ ·) (homopolymer_compress S) := by
  cases S with
  | nil => simp [homopolymer_compress_nil]
  | cons x xs =>
    rw [homopolymer_compress_cons]
    exact hocoGo_chain xs x

end HomopolymerCompress

namespace HomopolymerCompress

theorem hocoGo_of_chain {α : Type} [DecidableEq α] {l : List α} {p : α}
    (hc : List.Chain (· ≠ ·) p l) : hocoGo p l = l := by
  induction l generalizing p with
  | nil => rfl
  | cons x xs ih =>
    rcases List.chain_cons.mp hc with ⟨hpx, hxs⟩
    rw [hocoGo_cons_ne xs hpx, ih hxs]

/-- C5: For every finite sequence S, compressing twice equals compressing
once: homopolymer_compress is idempotent. -/
theorem compress_idempotent {α : Type} [DecidableEq α] (S : List α) :
    homopolymer_compress (homopolymer_compress S) = homopolymer_compress S := by
  cases S with
  | nil => rfl
  | cons x xs =>
    rw [homopolymer_compress_cons, homopolymer_compress_cons,
      hocoGo_of_chain (hocoGo_chain xs x)]

theorem hocoGo_length_le {α : Type} [DecidableEq α] (l : List α) (p : α) :
    (hocoGo p l).length ≤ l.length := by
  induction l generalizing p with
  | nil => exact Nat.le_refl 0
  | cons x xs ih =>
    by_cases h : p = x
    · rw [hocoGo_cons_eq xs h, List.length_cons]
      exact Nat.le_trans (ih p) (Nat.le_succ _)
    · rw [hocoGo_cons_ne xs h, List.length_cons, List.length_cons]
      exact Nat.succ_le_succ (ih x)

theorem hocoGo_length_eq_iff {α : Type} [DecidableEq α] (l : List α) (p : α) :
    (hocoGo p l).length = l.length ↔ List.Chain (· ≠ ·) p l := by
  induction l generalizing p with
  | nil => simp [hocoGo]
  | cons x xs ih =>
    by_cases h : p = x
    · rw [hocoGo_cons_eq xs h]
      constructor
      · intro hlen
        have := hocoGo_length_le xs p
        simp [List.length_cons] at hlen
        omega
      · intro hc
        exact absurd h (List.chain_cons.mp hc).1
    · rw [hocoGo_cons_ne xs h, List.length_cons, List.length_cons,
        List.chain_cons]
      constructor
      · intro hlen
        exact ⟨h, (ih x).mp (Nat.succ_injective hlen)⟩
      · intro hc
        rw [(ih x).mpr hc.2]

/-- C6: For every finite sequence S, the compressed length is at most the
input length, with equality exactly when S has no two equal adjacent
symbols. -/
theorem compress_length_bound {α : Type} [DecidableEq α] (S : List α) :
    (homopolymer_compress S).length ≤ S.length ∧
      ((homopolymer_compress S).length = S.length ↔
        List.Chain' (· ≠ ·) S) := by
  cases S with
  | nil => simp [homopolymer_compress_nil]
  | cons x xs =>
    rw [homopolymer_compress_cons]
    refine ⟨by simpa using Nat.succ_le_succ (hocoGo_length_le xs x), ?_⟩
    rw [List.length_cons, List.length_cons]
    constructor
    · intro hlen
      exact (hocoGo_length_eq_iff xs x).mp (Nat.succ_injective hlen)
    · intro hc
      have : List.Chain (· ≠ ·) x xs := hc
      rw [(hocoGo_length_eq_iff xs x).mpr this]

end HomopolymerCompress

namespace HomopolymerCompress

theorem hocoGo_replicate {α : Type} [DecidableEq α] (k : Nat) (a : α) :
    hocoGo a (List.replicate k a) = [] := by
  induction k with
  | zero => rfl
  | succ j ih => rw [List.replicate_succ, hocoGo_cons_eq _ rfl, ih]

/-- C7: Edge cases of compression. The empty input yields the empty
output; an input of length 1 yields exactly that one symbol; an input of
k >= 1 consecutive equal symbols yields exactly that one symbol; and
homopolymer_compress_with_hodeco_map on the empty input yields no pairs,
so appending the trailing total-length entry 0 gives the inversion map
[0] of length 1. -/
theorem compress_edge_cases {α : Type} [DecidableEq α] (a : α) (k : Nat)
    (hk : 1 ≤ k) :
    homopolymer_compress ([] : List α) = [] ∧
    homopolymer_compress [a] = [a] ∧
    homopolymer_compress (List.replicate k a) = [a] ∧
    homopolymer_compress_with_hodeco_map ([] : List α) = [] ∧
    (homopolymer_compress_with_hodeco_map ([] : List α)).map Prod.snd ++
        [([] : List α).length] = [0] ∧
    ((homopolymer_compress_with_hodeco_map ([] : List α)).map Prod.snd ++
        [([] : List α).length]).length = 1 := by
  refine ⟨rfl, ?_, ?_, rfl, rfl, rfl⟩
  · rw [homopolymer_compress_cons]
    rfl
  · obtain ⟨j, rfl⟩ : ∃ j, k = j + 1 := ⟨k - 1, by omega⟩
    rw [List.replicate_succ, homopolymer_compress_cons, hocoGo_replicate]

/-- Witness for compress_edge_cases at the concrete input a = 0, k = 2
over the natural numbers. -/
theorem compress_edge_cases_witness :
    1 ≤ 2 ∧
    (homopolymer_compress ([] : List Nat) = [] ∧
    homopolymer_compress [(0 : Nat)] = [0] ∧
    homopolymer_compress (List.replicate 2 (0 : Nat)) = [0] ∧
    homopolymer_compress_with_hodeco_map ([] : List Nat) = [] ∧
    (homopolymer_compress_with_hodeco_map ([] : List Nat)).map Prod.snd ++
        [([] : List Nat).length] = [0] ∧
    ((homopolymer_compress_with_hodeco_map ([] : List Nat)).map Prod.snd ++
        [([] : List Nat).length]).length = 1) :=
  ⟨by decide, compress_edge_cases (0 : Nat) 2 (by decide)⟩

/-- C10: For every non-empty input sequence S, homopolymer_compress S is
non-empty, its first symbol equals the first symbol of S, and the first
pair emitted by homopolymer_compress_with_hodeco_map S carries index 0. -/
theorem compress_head_nonempty {α : Type} [DecidableEq α] (S : List α)
    (h : S ≠ []) :
    homopolymer_compress S ≠ [] ∧
    (homopolymer_compress S).head? = S.head? ∧
    ((homopolymer_compress_with_hodeco_map S).head?).map Prod.snd = some 0 := by
  cases S with
  | nil => exact absurd rfl h
  | cons x xs =>
    rw [homopolymer_compress_cons, homopolymer_compress_with_hodeco_map_cons]
    exact ⟨List.cons_ne_nil x _, rfl, rfl⟩

/-- Witness for compress_head_nonempty at the concrete input [5, 5, 7]
over the natural numbers. -/
theorem compress_head_nonempty_witness :
    ([5, 5, 7] : List Nat) ≠ [] ∧
    (homopolymer_compress ([5, 5, 7] : List Nat) ≠ [] ∧
    (homopolymer_compress ([5, 5, 7] : List Nat)).head? =
      ([5, 5, 7] : List Nat).head? ∧
    ((homopolymer_compress_with_hodeco_map ([5, 5, 7] : List Nat)).head?).map
        Prod.snd = some 0) :=
  ⟨by decide, compress_head_nonempty [5, 5, 7] (by decide)⟩

end HomopolymerCompress

namespace HomopolymerCompress

/-- Lengths of the maximal runs of identical adjacent symbols, given that a
run of symbol p with c elements so far is open: close it at the first
differing symbol. -/
def runLengthsGo {α : Type} [DecidableEq α] (p : α) (c : Nat) :
    List α → List Nat
  | [] => [c]
  | x :: xs => if p = x then runLengthsGo p (c + 1) xs else c :: runLengthsGo x 1 xs

/-- Lengths of the maximal runs of identical adjacent symbols of a list,
in order of appearance. -/
def runLengths {α : Type} [DecidableEq α] : List α → List Nat
  | [] => []
  | x :: xs => runLengthsGo x 1 xs

/-- Differences of consecutive entries of a list of indices (the quantity
map[i+1] - map[i] of the spec, over all windows of size two). -/
def diffs : List Nat → List Nat
  | a :: b :: rest => (b - a) :: diffs (b :: rest)
  | _ => []

/-- Start offsets of the runs whose lengths are given: 0, then each
subsequent start is shifted by the preceding run length. -/
def startsOf : List Nat → List Nat
  | [] => []
  | c :: cs => 0 :: (startsOf cs).map (· + c)

theorem runLengthsGo_cons_eq {α : Type} [DecidableEq α] {p x : α} (c : Nat)
    (xs : List α) (h : p = x) :
    runLengthsGo p c (x :: xs) = runLengthsGo p (c + 1) xs := by
  simp [runLengthsGo, h]

theorem runLengthsGo_cons_ne {α : Type} [DecidableEq α] {p x : α} (c : Nat)
    (xs : List α) (h : p ≠ x) :
    runLengthsGo p c (x :: xs) = c :: runLengthsGo x 1 xs := by
  simp [runLengthsGo, h]

theorem hodecoGo_map_fst {α : Type} [DecidableEq α] (l : List α) (p : α)
    (n : Nat) : (hodecoGo p n l).map Prod.fst = hocoGo p l := by
  induction l generalizing p n with
  | nil => rfl
  | cons x xs ih =>
    by_cases h : p = x
    · rw [hodecoGo_cons_eq n xs h, hocoGo_cons_eq xs h, ih]
    · rw [hodecoGo_cons_ne n xs h, hocoGo_cons_ne xs h, List.map_cons, ih]

theorem hodecoGo_diffs {α : Type} [DecidableEq α] (l : List α) (p : α)
    (n s : Nat) (hs : s ≤ n) :
    diffs (s :: ((hodecoGo p n l).map Prod.snd ++ [n + l.length])) =
      runLengthsGo p (n - s) l := by
  induction l generalizing p n s with
  | nil => simp [hodecoGo, diffs, runLengthsGo]
  | cons x xs ih =>
    by_cases h : p = x
    · rw [hodecoGo_cons_eq n xs h, List.length_cons]
      have h1 : n + (xs.length + 1) = (n + 1) + xs.length := by omega
      rw [h1, ih p (n + 1) s (by omega)]
      have h2 : n + 1 - s = (n - s) + 1 := by omega
      rw [h2, runLengthsGo_cons_eq _ xs h]
    · rw [hodecoGo_cons_ne n xs h, List.length_cons, List.map_cons,
        List.cons_append, runLengthsGo_cons_ne _ xs h]
      show (n - s) :: diffs (n :: _) = _
      have h1 : n + (xs.length + 1) = (n + 1) + xs.length := by omega
      rw [h1, ih x (n + 1) n (by omega)]
      have h2 : n + 1 - n = 1 := by omega
      rw [h2]

theorem hodecoGo_snd_chain {α : Type} [DecidableEq α] (l : List α) (p : α)
    (n s : Nat) (hs : s < n) :
    List.Chain (· < ·) s ((hodecoGo p n l).map Prod.snd ++ [n + l.length]) := by
  induction l generalizing p n s with
  | nil => simpa [hodecoGo] using List.Chain.cons hs List.Chain.nil
  | cons x xs ih =>
    by_cases h : p = x
    · rw [hodecoGo_cons_eq n xs h, List.length_cons]
      have h1 : n + (xs.length + 1) = (n + 1) + xs.length := by omega
      rw [h1]
      exact ih p (n + 1) s (by omega)
    · rw [hodecoGo_cons_ne n xs h, List.length_cons, List.map_cons,
        List.cons_append]
      have h1 : n + (xs.length + 1) = (n + 1) + xs.length := by omega
      rw [h1]
      exact List.Chain.cons hs (ih x (n + 1) n (by omega))

theorem startsOf_cons (c : Nat) (cs : List Nat) :
    startsOf (c :: cs) = 0 :: (startsOf cs).map (· + c) := rfl

theorem hodecoGo_snd_starts {α : Type} [DecidableEq α] (l : List α) (p : α)
    (n s : Nat) (hs : s ≤ n) :
    s :: (hodecoGo p n l).map Prod.snd =
      (startsOf (runLengthsGo p (n - s) l)).map (· + s) := by
  induction l generalizing p n s with
  | nil => simp [hodecoGo, runLengthsGo, startsOf]
  | cons x xs ih =>
    by_cases h : p = x
    · rw [hodecoGo_cons_eq n xs h, runLengthsGo_cons_eq _ xs h]
      have h2 : n - s + 1 = (n + 1) - s := by omega
      rw [h2]
      exact ih p (n + 1) s (by omega)
    · rw [hodecoGo_cons_ne n xs h, runLengthsGo_cons_ne _ xs h, List.map_cons]
      have h3 := ih x (n + 1) n (Nat.le_succ n)
      have h2 : (n + 1) - n = 1 := by omega
      rw [h2] at h3
      rw [h3, startsOf_cons, List.map_cons, List.map_map, Nat.zero_add]
      congr 1
      refine List.map_congr_left (fun a _ => ?_)
      simp only [Function.comp_apply]
      omega

end HomopolymerCompress

namespace HomopolymerCompress

/-- C3: For every finite input sequence S, the index list produced by
homopolymer_compress_with_hodeco_map S with the total length of S appended
(as done by the worker thread and the test) has length
len(homopolymer_compress S) + 1, is strictly increasing, and its list of
consecutive differences map[i+1] - map[i] is exactly the list of lengths
of the maximal runs of identical adjacent symbols of S, in order. -/
theorem inversion_map_spec {α : Type} [DecidableEq α] (S : List α) :
    ((homopolymer_compress_with_hodeco_map S).map Prod.snd ++
        [S.length]).length = (homopolymer_compress S).length + 1 ∧
    List.Chain' (· < ·)
      ((homopolymer_compress_with_hodeco_map S).map Prod.snd ++ [S.length]) ∧
    diffs ((homopolymer_compress_with_hodeco_map S).map Prod.snd ++
        [S.length]) = runLengths S := by
  cases S with
  | nil =>
    refine ⟨rfl, ?_, rfl⟩
    simp [homopolymer_compress_with_hodeco_map_nil]
  | cons x xs =>
    rw [homopolymer_compress_with_hodeco_map_cons, homopolymer_compress_cons]
    have h1 : xs.length + 1 = 1 + xs.length := by omega
    have hlen : (hodecoGo x 1 xs).length = (hocoGo x xs).length := by
      have h := congrArg List.length (hodecoGo_map_fst xs x 1)
      simpa using h
    refine ⟨?_, ?_, ?_⟩
    · simp only [List.map_cons, List.cons_append, List.length_cons,
        List.length_append, List.length_map, List.length_nil, hlen]
    · show List.Chain (· < ·) 0
        ((hodecoGo x 1 xs).map Prod.snd ++ [xs.length + 1])
      rw [h1]
      exact hodecoGo_snd_chain xs x 1 0 (by omega)
    · show diffs ((0 : Nat) ::
        ((hodecoGo x 1 xs).map Prod.snd ++ [xs.length + 1])) = runLengths (x :: xs)
      rw [h1]
      have h := hodecoGo_diffs xs x 1 0 (by omega)
      simpa [runLengths] using h

/-- C4: For every finite input sequence S, the map-producing variant
performs the identical scan as plain compression: the first components of
homopolymer_compress_with_hodeco_map S form exactly homopolymer_compress S,
and the second components are exactly the start offsets of the maximal runs
of identical adjacent symbols of S, in order (the index of the input element
that triggered each emission). -/
theorem compress_with_map_refines {α : Type} [DecidableEq α] (S : List α) :
    (homopolymer_compress_with_hodeco_map S).map Prod.fst =
      homopolymer_compress S ∧
    (homopolymer_compress_with_hodeco_map S).map Prod.snd =
      startsOf (runLengths S) := by
  cases S with
  | nil => exact ⟨rfl, rfl⟩
  | cons x xs =>
    rw [homopolymer_compress_with_hodeco_map_cons, homopolymer_compress_cons,
      List.map_cons, List.map_cons]
    refine ⟨by rw [hodecoGo_map_fst], ?_⟩
    have h3 := hodecoGo_snd_starts xs x 1 0 (by omega)
    have h2 : (1 : Nat) - 0 = 1 := rfl
    rw [h2] at h3
    rw [show runLengths (x :: xs) = runLengthsGo x 1 xs from rfl, h3]
    simp

end HomopolymerCompress

namespace HomopolymerCompress

/-- A parsed fasta record as delivered by the reader thread (id,
description, sequence of bytes). Bytes are modelled as naturals. -/
structure FastaRecord where
  rid : String
  desc : Option String
  seq : List Nat

/-- The command-line configuration of the binary (src/main.rs lines 12-35),
restricted to the fields the modelled control flow branches on. The input
path is represented by its extension (the only thing main inspects) plus
whether the file can be opened; the two optional output paths keep only
presence and name. -/
structure Configuration where
  inputExtension : Option String
  inputExists : Bool
  output : Option String
  hodeco_map_output : Option String

/-- The distinct panic and assertion sites of main that the modelled flow
can reach (src/main.rs: the extension check at lines 53-60, the input open
at lines 64-65, the unreachable mapping unwrap at line 106, and the stdout
writer assertion at lines 125-128). -/
inductive RunError
  | configBadExtension
  | cannotOpenInput
  | unreachableNoMapping
  | assertFoundHodecoMapping
deriving DecidableEq

/-- Per-record work of one compute thread (src/main.rs lines 135-178): when
a hodeco map sink is configured the record is compressed with the map and
the total sequence length is appended; otherwise it is compressed plain. -/
def computeRecord (withMap : Bool) (r : FastaRecord) :
    String × Option String × (List Nat × Option (List Nat)) :=
  if withMap then
    (r.rid, r.desc,
      ((homopolymer_compress_with_hodeco_map r.seq).map Prod.fst,
        some ((homopolymer_compress_with_hodeco_map r.seq).map Prod.snd ++
          [r.seq.length])))
  else
    (r.rid, r.desc, (homopolymer_compress r.seq, none))

/-- The writer thread when an output file is configured (src/main.rs lines
86-114): writes each fasta record, and when a hodeco map sink is configured
additionally writes the (id, map) pair, where a missing map is the
unreachable branch of line 106. Returns the written fasta records and
written map entries. -/
def writeFileRecords (mapConfigured : Bool) :
    List (String × Option String × (List Nat × Option (List Nat))) →
      Except RunError
        (List (String × Option String × List Nat) × List (String × List Nat))
  | [] => Except.ok ([], [])
  | (rid, desc, (seq, mapping)) :: rest =>
    if mapConfigured then
      match mapping with
      | none => Except.error RunError.unreachableNoMapping
      | some m =>
        match writeFileRecords mapConfigured rest with
        | Except.error e => Except.error e
        | Except.ok (fs, ms) => Except.ok ((rid, desc, seq) :: fs, (rid, m) :: ms)
    else
      match writeFileRecords mapConfigured rest with
      | Except.error e => Except.error e
      | Except.ok (fs, ms) => Except.ok ((rid, desc, seq) :: fs, ms)

/-- The writer thread when no output file is configured (src/main.rs lines
115-133): writes to stdout, first asserting for every record that no hodeco
mapping is attached. -/
def writeStdoutRecords :
    List (String × Option String × (List Nat × Option (List Nat))) →
      Except RunError (List (String × Option String × List Nat))
  | [] => Except.ok []
  | (rid, desc, (seq, mapping)) :: rest =>
    if mapping.isSome then Except.error RunError.assertFoundHodecoMapping
    else
      match writeStdoutRecords rest with
      | Except.error e => Except.error e
      | Except.ok fs => Except.ok ((rid, desc, seq) :: fs)

/-- Sequential model of main (src/main.rs lines 49-182): check the input
extension, open the input, compress every record (with a hodeco map exactly
when a map sink is configured), and write through the configured writer.
The thread pool and channels only permute record order, which none of the
claims settled here depend on, so records are processed in source order. -/
def runMain (cfg : Configuration) (records : List FastaRecord) :
    Except RunError
      (List (String × Option String × List Nat) × List (String × List Nat)) :=
  match cfg.inputExtension with
  | none => Except.error RunError.configBadExtension
  | some e =>
    if e ≠ "fasta" ∧ e ≠ "fa" then Except.error RunError.configBadExtension
    else if !cfg.inputExists then Except.error RunError.cannotOpenInput
    else
      let outs := records.map (computeRecord cfg.hodeco_map_output.isSome)
      match cfg.output with
      | some _ => writeFileRecords cfg.hodeco_map_output.isSome outs
      | none =>
        match writeStdoutRecords outs with
        | Except.error e => Except.error e
        | Except.ok fs => Except.ok (fs, [])

end HomopolymerCompress

namespace HomopolymerCompress

theorem writeFileRecords_error_eq {b : Bool}
    {l : List (String × Option String × (List Nat × Option (List Nat)))}
    {e : RunError} (h : writeFileRecords b l = Except.error e) :
    e = RunError.unreachableNoMapping := by
  revert h
  induction l generalizing e with
  | nil => intro h; simp [writeFileRecords] at h
  | cons r rest ih =>
    intro h
    obtain ⟨rid, desc, seq, mapping⟩ := r
    cases b with
    | true =>
      cases mapping with
      | none =>
        simp only [writeFileRecords, if_pos] at h
        exact (Except.error.inj h).symm
      | some m =>
        simp only [writeFileRecords, if_pos] at h
        cases hrec : writeFileRecords true rest with
        | error e2 =>
          rw [hrec] at h
          exact (Except.error.inj h) ▸ ih hrec
        | ok v =>
          rw [hrec] at h
          cases h
    | false =>
      simp only [writeFileRecords, Bool.false_eq_true, if_false] at h
      cases hrec : writeFileRecords false rest with
      | error e2 =>
        rw [hrec] at h
        exact (Except.error.inj h) ▸ ih hrec
      | ok v =>
        rw [hrec] at h
        cases h

theorem writeStdoutRecords_error_eq
    {l : List (String × Option String × (List Nat × Option (List Nat)))}
    {e : RunError} (h : writeStdoutRecords l = Except.error e) :
    e = RunError.assertFoundHodecoMapping := by
  revert h
  induction l generalizing e with
  | nil => intro h; simp [writeStdoutRecords] at h
  | cons r rest ih =>
    intro h
    obtain ⟨rid, desc, seq, mapping⟩ := r
    by_cases hm : mapping.isSome
    · simp only [writeStdoutRecords, if_pos hm] at h
      exact (Except.error.inj h).symm
    · simp only [writeStdoutRecords, if_neg hm] at h
      cases hrec : writeStdoutRecords rest with
      | error e2 =>
        rw [hrec] at h
        exact (Except.error.inj h) ▸ ih hrec
      | ok v =>
        rw [hrec] at h
        cases h

/-- C9: The program accepts an input file as valid only when its extension
is in the whitelisted set ("fa" or "fasta"): with no extension or any other
extension, runMain fails with the bad-extension configuration error
regardless of the records (so before the pipeline touches any record), and
with a whitelisted extension that error can never occur. -/
theorem extension_whitelist (cfg : Configuration)
    (records : List FastaRecord) :
    (cfg.inputExtension = none →
      runMain cfg records = Except.error RunError.configBadExtension) ∧
    (∀ e, cfg.inputExtension = some e → e ≠ "fasta" → e ≠ "fa" →
      runMain cfg records = Except.error RunError.configBadExtension) ∧
    ((cfg.inputExtension = some "fa" ∨ cfg.inputExtension = some "fasta") →
      runMain cfg records ≠ Except.error RunError.configBadExtension) := by
  obtain ⟨ext, ie, out, hmo⟩ := cfg
  refine ⟨?_, ?_, ?_⟩
  · intro h
    simp only at h
    subst h
    rfl
  · intro e h hne1 hne2
    simp only at h
    subst h
    simp [runMain, hne1, hne2]
  · intro h hcontra
    have hwl : ext = some "fa" ∨ ext = some "fasta" := by simpa using h
    rcases hwl with hfa | hfasta
    all_goals subst_vars
    all_goals simp only [runMain] at hcontra
    all_goals rw [if_neg (by simp)] at hcontra
    all_goals by_cases hie : ie <;> simp only [hie] at hcontra
    case pos | pos =>
      cases out with
      | some o =>
        simp only at hcontra
        exact absurd (writeFileRecords_error_eq hcontra) (by simp)
      | none =>
        simp only at hcontra
        cases hrec : writeStdoutRecords
            ((List.map (computeRecord hmo.isSome) records)) with
        | error e2 =>
          rw [hrec] at hcontra
          have := writeStdoutRecords_error_eq hrec
          subst this
          exact RunError.noConfusion (Except.error.inj hcontra)
        | ok v =>
          rw [hrec] at hcontra
          cases hcontra
    case neg | neg =>
      exact RunError.noConfusion (Except.error.inj hcontra)

/-- Witness for extension_whitelist: a txt extension is rejected with the
configuration error. -/
theorem extension_whitelist_witness :
    runMain ⟨some "txt", true, none, none⟩ [] =
      Except.error RunError.configBadExtension :=
  (extension_whitelist ⟨some "txt", true, none, none⟩ []).2.1 "txt" rfl
    (by decide) (by decide)

end HomopolymerCompress

namespace HomopolymerCompress

/-- A configuration requesting a hodeco map output while no primary output
file is configured, with a valid input extension. -/
def mapWithoutSinkConfiguration : Configuration :=
  { inputExtension := some "fa", inputExists := true,
    output := none, hodeco_map_output := some "map.cbor" }

/-- A single concrete fasta record. -/
def sampleRecord : FastaRecord :=
  { rid := "r1", desc := none, seq := [65, 65, 67] }

/-- C8 counterexample: with a hodeco map requested and no primary output
sink, the run on one record does not fail with the configuration error;
it fails inside the stdout writer with the runtime assertion, and on an
empty input it does not fail at all, so the combination is not rejected
up front. -/
theorem hodeco_without_output_not_config_error :
    runMain mapWithoutSinkConfiguration [sampleRecord] =
      Except.error RunError.assertFoundHodecoMapping ∧
    runMain mapWithoutSinkConfiguration [sampleRecord] ≠
      Except.error RunError.configBadExtension ∧
    runMain mapWithoutSinkConfiguration [] = Except.ok ([], []) := by
  have h1 : runMain mapWithoutSinkConfiguration [sampleRecord] =
      Except.error RunError.assertFoundHodecoMapping := by rfl
  refine ⟨h1, ?_, by rfl⟩
  intro hcontra
  exact RunError.noConfusion (Except.error.inj (h1.symm.trans hcontra))

/-- C8 amended: requesting a hodeco map without a primary output sink is
not rejected up front as a configuration error; such a configuration
passes the configuration checks, the workers attach a map to every record,
and the stdout writer's runtime assertion fails as soon as the first
record is processed, while an input with no records completes without any
error. -/
theorem hodeco_without_output_runtime_assert (cfg : Configuration)
    (records : List FastaRecord)
    (hout : cfg.output = none)
    (hmap : cfg.hodeco_map_output.isSome = true)
    (hext : cfg.inputExtension = some "fa" ∨ cfg.inputExtension = some "fasta")
    (hin : cfg.inputExists = true) :
    (records = [] → runMain cfg records = Except.ok ([], [])) ∧
    (records ≠ [] → runMain cfg records =
      Except.error RunError.assertFoundHodecoMapping) := by
  obtain ⟨ext, ie, out, hmo⟩ := cfg
  simp only at hout hmap hext hin
  subst hout hin
  obtain ⟨m, hm⟩ := Option.isSome_iff_exists.mp hmap
  subst hm
  constructor
  · intro h
    subst h
    rcases hext with hfa | hfasta
    all_goals subst_vars
    all_goals simp [runMain, writeStdoutRecords]
  · intro h
    cases records with
    | nil => exact absurd rfl h
    | cons r rest =>
      rcases hext with hfa | hfasta
      all_goals subst_vars
      all_goals simp [runMain, computeRecord, hmap, writeStdoutRecords]

/-- Witness for hodeco_without_output_runtime_assert at the concrete
configuration and single record above. -/
theorem hodeco_without_output_runtime_assert_witness :
    mapWithoutSinkConfiguration.output = none ∧
    mapWithoutSinkConfiguration.hodeco_map_output.isSome = true ∧
    (mapWithoutSinkConfiguration.inputExtension = some "fa" ∨
      mapWithoutSinkConfiguration.inputExtension = some "fasta") ∧
    mapWithoutSinkConfiguration.inputExists = true ∧
    (([sampleRecord] : List FastaRecord) = [] →
      runMain mapWithoutSinkConfiguration [sampleRecord] = Except.ok ([], [])) ∧
    (([sampleRecord] : List FastaRecord) ≠ [] →
      runMain mapWithoutSinkConfiguration [sampleRecord] =
        Except.error RunError.assertFoundHodecoMapping) := by
  refine ⟨rfl, rfl, Or.inl rfl, rfl, ?_⟩
  exact hodeco_without_output_runtime_assert mapWithoutSinkConfiguration
    [sampleRecord] rfl rfl (Or.inl rfl) rfl

end HomopolymerCompress
